import Mathlib

/-!
Verification development for `merlin/analysis/preprocess.py` (MERlin).

The file shallowly embeds the preprocessing task: configuration resolution
(`DeconvolutionPreprocess.__init__`), the per-image restoration pipeline
(`_preprocess_image`), the per-fragment histogram computation
(`_run_analysis`), and the histogram store/aggregator
(`Preprocess.get_pixel_histogram` / `_save_pixel_histogram`).

Modelling conventions:
* `uint16` images are `List (List Nat)` (row-major); `float64` images are
  `List (List Rat)`.  Floating-point values are modelled by exact rationals:
  all quantities the claims compare are integer counts far below 2^53, where
  float64 arithmetic is exact.
* `cv2.GaussianBlur` and the Gaussian convolution used inside
  `merlin.util.deconvolve.deconvolve_lucyrichardson` evaluate transcendental
  kernel weights; they are taken as explicit function parameters
  (`gaussianBlur`, `convolveGaussian`) of the definitions that call them.
* Fallible operations return `Except PreprocessError`.
-/

/-- A uint16 image: rows of non-negative integer samples. -/
abbrev Image := List (List ℕ)

/-- A float64 image, values modelled as exact rationals. -/
abbrev ImageQ := List (List ℚ)

/-- The list of row lengths of a 2D list; two numpy arrays interoperate
elementwise exactly when these agree. -/
def shapeOf (a : List (List α)) : List ℕ := a.map List.length

/-- Two 2D lists have identical shape. -/
abbrev sameShape (a : List (List α)) (b : List (List β)) : Prop :=
  shapeOf a = shapeOf b

/-- `inputImage.astype(float) - other`: elementwise subtraction after the
float cast (numpy returns a freshly allocated float array). -/
def imgSubQ (a : Image) (b : Image) : ImageQ :=
  List.zipWith (List.zipWith (fun (x y : ℕ) => (x : ℚ) - (y : ℚ))) a b

/-- `filteredImage[filteredImage < 0] = 0`: clip negative entries to zero. -/
def clipNegQ (img : ImageQ) : ImageQ :=
  img.map (List.map (fun x => if x < 0 then 0 else x))

/-- Elementwise combination of two float images of equal shape. -/
def zipWithQ (f : ℚ → ℚ → ℚ) (a b : ImageQ) : ImageQ :=
  List.zipWith (List.zipWith f) a b

/-- `int(2 * np.ceil(2 * sigma) + 1)`: the Gaussian kernel size derived from
a standard deviation (`_preprocess_image` line 161 and `__init__` line 51). -/
def gaussianKernelSizeFromSigma (sigma : ℚ) : ℤ :=
  2 * ⌈2 * sigma⌉ + 1

/-- Partially specified restoration parameters: the `self.parameters` dict of
`DeconvolutionPreprocess.__init__` restricted to the five restoration keys
(`None` models an absent key). -/
structure PartialParams where
  highpass_sigma : Option ℚ
  decon_sigma : Option ℚ
  decon_filter_size : Option ℤ
  decon_iterations : Option ℤ
  codebook_index : Option ℤ
deriving DecidableEq

/-- Fully resolved restoration parameters, as they stand after the default
filling in `DeconvolutionPreprocess.__init__` (lines 44-54). -/
structure ResolvedParams where
  highpass_sigma : ℚ
  decon_sigma : ℚ
  decon_filter_size : ℤ
  decon_iterations : ℤ
  codebook_index : ℤ
deriving DecidableEq

/-- `DeconvolutionPreprocess.__init__` lines 44-54: each absent key is filled
with its default, in source order; `decon_filter_size` is derived from the
already-resolved `decon_sigma`.  The source contains no validation and no
raise: resolution is total. -/
def resolveParameters (p : PartialParams) : ResolvedParams :=
  let highpassSigma := p.highpass_sigma.getD 3
  let deconSigma := p.decon_sigma.getD 2
  let deconFilterSize :=
    p.decon_filter_size.getD (gaussianKernelSizeFromSigma deconSigma)
  let deconIterations := p.decon_iterations.getD 20
  let codebookIndex := p.codebook_index.getD 0
  ⟨highpassSigma, deconSigma, deconFilterSize, deconIterations, codebookIndex⟩

/-- A parameter dict with all five restoration keys absent. -/
def emptyParams : PartialParams := ⟨none, none, none, none, none⟩

/-- The parameters used by a task configured with all defaults. -/
def defaultParams : ResolvedParams := resolveParameters emptyParams

/-- One Lucy-Richardson iteration.  Modelled from the spec:
`merlin.util.deconvolve.deconvolve_lucyrichardson` is not under `src/`;
section 4.3 of the spec specifies each iteration as (1) convolve the current
estimate with the kernel, (2) take the ratio of the observed image to the
prediction, zero-predicted pixels contributing a zero ratio, (3) convolve the
ratio with the (symmetric) kernel, (4) multiply the estimate elementwise by
that correction.  `conv` is the convolution with the Gaussian kernel. -/
def lucyRichardsonStep (conv : ImageQ → ImageQ) (observed estimate : ImageQ) :
    ImageQ :=
  let predicted := conv estimate
  let ratio := zipWithQ (fun o q => if q = 0 then 0 else o / q) observed predicted
  let correction := conv ratio
  zipWithQ (fun e c => e * c) estimate correction

/-- Modelled from the spec: `merlin.util.deconvolve.deconvolve_lucyrichardson`
is not under `src/`.  Section 4.3: the estimate is initialized to the observed
image, exactly `iterationCount` iterations are performed with no early
termination, and intermediate estimates stay floating-point.
`convolveGaussian windowSize sigmaG` is convolution with the Gaussian kernel
of the given size and standard deviation. -/
def deconvolveLucyRichardson (convolveGaussian : ℤ → ℚ → ImageQ → ImageQ)
    (image : ImageQ) (windowSize : ℤ) (sigmaG : ℚ) (iterationCount : ℤ) :
    ImageQ :=
  (lucyRichardsonStep (convolveGaussian windowSize sigmaG) image)^[iterationCount.toNat]
    image

/-- `.astype(np.uint16)` on one float64 value: truncation toward zero, then
reduction into the 16-bit range (the C cast wraps modulo 2^16; values in
(-1, 0], and the negative values unreachable from non-negative inputs, are
modelled as 0). -/
def castUint16Q (x : ℚ) : ℕ := (⌊x⌋.toNat) % 65536

/-- `.astype(np.uint16)` on a float64 image (a fresh uint16 array). -/
def castImageUint16 (img : ImageQ) : Image :=
  img.map (List.map castUint16Q)

/-- Lines 160-167 of `_preprocess_image`: the background-suppression stage.
`filteredImage = inputImage.astype(float) - cv2.GaussianBlur(inputImage,
(k, k), sigma, borderType=cv2.BORDER_REPLICATE)` with
`k = int(2*np.ceil(2*sigma)+1)`, followed by `filteredImage[filteredImage <
0] = 0`.  `gaussianBlur size sigma` abstracts `cv2.GaussianBlur` (uint16 in,
uint16 out, same shape). -/
def highPassFilter (gaussianBlur : ℤ → ℚ → Image → Image)
    (highPassSigma : ℚ) (inputImage : Image) : ImageQ :=
  clipNegQ (imgSubQ inputImage
    (gaussianBlur (gaussianKernelSizeFromSigma highPassSigma) highPassSigma
      inputImage))

/-- `DeconvolutionPreprocess._preprocess_image` (lines 160-171): background
suppression, then Lucy-Richardson deconvolution with `decon_filter_size`,
`decon_sigma`, `decon_iterations`, then the final `.astype(np.uint16)`. -/
def preprocessImage (gaussianBlur : ℤ → ℚ → Image → Image)
    (convolveGaussian : ℤ → ℚ → ImageQ → ImageQ)
    (p : ResolvedParams) (inputImage : Image) : Image :=
  let filteredImage := highPassFilter gaussianBlur p.highpass_sigma inputImage
  castImageUint16 (deconvolveLucyRichardson convolveGaussian filteredImage
    p.decon_filter_size p.decon_sigma p.decon_iterations)

/-- A numpy 2D array of counts: explicit shape plus an entry function
(entries outside the shape are irrelevant padding kept at 0 by every
operation below). -/
structure NpMatrix where
  rows : ℕ
  cols : ℕ
  entry : ℕ → ℕ → ℕ

/-- `np.zeros((r, c))`. -/
def npZeros (r c : ℕ) : NpMatrix := ⟨r, c, fun _ _ => 0⟩

/-- Elementwise `+=` of two equal-shaped count matrices (the result keeps the
accumulator's shape, as numpy's in-place add does). -/
def histAdd (a b : NpMatrix) : NpMatrix :=
  ⟨a.rows, a.cols, fun i j => a.entry i j + b.entry i j⟩

/-- Number of pixels of an image satisfying a predicate. -/
def countPixels (img : Image) (p : ℕ → Bool) : ℕ :=
  (img.map (fun row => (row.filter p).length)).sum

/-- `np.histogram(img, bins=edges)[0][b]` for integer samples and strictly
increasing integer edges: bin `b` spans `[edges[b], edges[b+1])`, except the
final bin which is closed on the right; indices past the last bin are 0. -/
def npBinCount (edges : List ℕ) (img : Image) (b : ℕ) : ℕ :=
  if b + 2 < edges.length then
    countPixels img (fun v => edges.getD b 0 ≤ v && v < edges.getD (b + 1) 0)
  else if b + 2 = edges.length then
    countPixels img (fun v => edges.getD b 0 ≤ v && v ≤ edges.getD (b + 1) 0)
  else 0

/-- The number of entries of `np.arange(0, np.iinfo(np.uint16).max, 1)`:
one edge per integer from 0 to 65534.  (`histogramEdges_length` below proves
this equals `histogramEdges.length`; the constant keeps the histogram shape
kernel-reducible.) -/
def histogramEdgeCount : ℕ := 65535

/-- `histogramBins = np.arange(0, np.iinfo(np.uint16).max, 1)` from
`_run_analysis` line 144: the 65535 integers 0, 1, ..., 65534, used as bin
edges. -/
def histogramEdges : List ℕ := List.range histogramEdgeCount

/-- The membership predicate of bin `b` of the `histogramEdges` binning,
with the edge values written out: a half-open width-1 bin, except the final
bin (`b = 65533`) which is closed on the right; no bin contains 65535. -/
def binPred (b v : ℕ) : Bool :=
  if b + 2 < histogramEdgeCount then b ≤ v && v < b + 1
  else if b + 2 = histogramEdgeCount then b ≤ v && v ≤ b + 1
  else false

/-- The external collaborators `_run_analysis` consults: the active
codebook's ordered bit names, the bit-to-data-channel mapping of the data
organization, the number of z positions, and the warp task's aligned images
(`warpTask.get_aligned_image(fragment, channel, z)`, a uint16 image). -/
structure DataSetModel where
  bitNames : List String
  channelForBit : String → ℕ
  zPositionCount : ℕ
  alignedImage : ℕ → ℕ → ℕ → Image

/-- `DeconvolutionPreprocess._run_analysis` (lines 141-158): start from
`np.zeros((bit_count, len(histogramBins) - 1))` and, for every bit and every
z position, preprocess the aligned image of the bit's data channel and add
its `np.histogram` counts into the bit's row. -/
def runAnalysisHistogram (gaussianBlur : ℤ → ℚ → Image → Image)
    (convolveGaussian : ℤ → ℚ → ImageQ → ImageQ)
    (p : ResolvedParams) (ds : DataSetModel) (fragmentIndex : ℕ) : NpMatrix :=
  ⟨ds.bitNames.length, histogramEdgeCount - 1,
    fun bi b =>
      match ds.bitNames.get? bi with
      | none => 0
      | some bitName =>
        ((List.range ds.zPositionCount).map (fun i =>
          npBinCount histogramEdges
            (preprocessImage gaussianBlur convolveGaussian p
              (ds.alignedImage fragmentIndex (ds.channelForBit bitName) i)) b)).sum⟩

/-- The failure modes of the histogram store.  Modelled from the spec:
`dataSet.load_numpy_analysis_result` (in `merlin.core.dataset`, not under
`src/`) fails with `HistogramNotFound` when the requested fragment's
histogram has not been persisted; indexing an empty Python list raises
`IndexError`. -/
inductive PreprocessError
  | histogramNotFound
  | indexError
deriving DecidableEq

/-- The histogram store: the dataset's fragment (fov) list and the persisted
per-fragment histograms (`None` = not yet persisted by
`_save_pixel_histogram`). -/
structure HistStore where
  fovs : List ℕ
  stored : ℕ → Option NpMatrix

/-- `Preprocess.get_pixel_histogram(fov)` for an explicit fov: load the
persisted histogram.  Modelled from the spec for the persistence interface:
load fails with `HistogramNotFound` when that fragment has not completed. -/
def loadPixelHistogram (s : HistStore) (fov : ℕ) :
    Except PreprocessError NpMatrix :=
  match s.stored fov with
  | some h => .ok h
  | none => .error .histogramNotFound

/-- The accumulation loop of `Preprocess.get_pixel_histogram(None)`:
`for f in self.dataSet.get_fovs(): pixelHistogram += self.get_pixel_histogram(f)`,
stopping with the load's error as soon as a fragment's histogram is
missing. -/
def aggregateLoop (s : HistStore) (acc : NpMatrix) :
    List ℕ → Except PreprocessError NpMatrix
  | [] => .ok acc
  | f :: rest =>
    match loadPixelHistogram s f with
    | .error e => .error e
    | .ok h => aggregateLoop s (histAdd acc h) rest

/-- `Preprocess.get_pixel_histogram` (lines 22-32).  With a fov, load that
fragment's histogram.  Without one, read `get_fovs()[0]` (an `IndexError`
when the fov list is empty), allocate `np.zeros` of the first histogram's
shape, and add every fragment's histogram into it. -/
def getPixelHistogram (s : HistStore) :
    Option ℕ → Except PreprocessError NpMatrix
  | some fov => loadPixelHistogram s fov
  | none =>
    match s.fovs with
    | [] => .error .indexError
    | f0 :: _ =>
      match loadPixelHistogram s f0 with
      | .error e => .error e
      | .ok h0 => aggregateLoop s (npZeros h0.rows h0.cols) s.fovs

/-- The elementwise sum of a list of equal-shaped histograms, with an
explicitly given shape. -/
def histSum (l : List NpMatrix) (r c : ℕ) : NpMatrix :=
  ⟨r, c, fun i j => (l.map (fun h => h.entry i j)).sum⟩

/-- A numpy array buffer: either a uint16 or a float64 image. -/
inductive NpBuf
  | u16 (img : Image)
  | f64 (img : ImageQ)

/-- A heap of numpy array buffers, indexed by buffer id. -/
abbrev NpHeap := ℕ → NpBuf

/-- `_preprocess_image` with the array buffers made explicit, to track which
buffers are written.  The caller's array lives at `inputId`; ids from
`nextId` up are free.  Per numpy/cv2 semantics: `cv2.GaussianBlur` (no `dst`)
returns a fresh array; `astype` copies; `a - b` allocates the result
(`filteredImage`); the masked assignment `filteredImage[filteredImage < 0] =
0` writes that same buffer in place; `deconvolve_lucyrichardson` returns a
fresh array and the final `astype(np.uint16)` copies it.  Returns the final
heap, the output buffer id, and the next free id. -/
def preprocessImageBuffers (gaussianBlur : ℤ → ℚ → Image → Image)
    (convolveGaussian : ℤ → ℚ → ImageQ → ImageQ) (p : ResolvedParams)
    (h : NpHeap) (inputId nextId : ℕ) : NpHeap × ℕ × ℕ :=
  let inputImage : Image :=
    match h inputId with
    | .u16 img => img
    | .f64 _ => []
  let blurredImage :=
    gaussianBlur (gaussianKernelSizeFromSigma p.highpass_sigma)
      p.highpass_sigma inputImage
  let h1 := Function.update h nextId (NpBuf.u16 blurredImage)
  let h2 := Function.update h1 (nextId + 1)
    (NpBuf.f64 (imgSubQ inputImage blurredImage))
  let h3 := Function.update h2 (nextId + 1)
    (match h2 (nextId + 1) with
     | NpBuf.f64 img => NpBuf.f64 (clipNegQ img)
     | b => b)
  let deconvolvedImage :=
    deconvolveLucyRichardson convolveGaussian
      (highPassFilter gaussianBlur p.highpass_sigma inputImage)
      p.decon_filter_size p.decon_sigma p.decon_iterations
  let h4 := Function.update h3 (nextId + 2) (NpBuf.f64 deconvolvedImage)
  let h5 := Function.update h4 (nextId + 3)
    (NpBuf.u16 (castImageUint16 deconvolvedImage))
  (h5, nextId + 3, nextId + 4)

/-- A blur instance used for concrete evaluations: the identity image map
(shape-preserving, as `cv2.GaussianBlur` is). -/
def cBlur : ℤ → ℚ → Image → Image := fun _ _ img => img

/-- A convolution instance used for concrete evaluations: the identity. -/
def cConv : ℤ → ℚ → ImageQ → ImageQ := fun _ _ img => img

/-- A concrete dataset with two bits, one z position, and empty aligned
images. -/
def cDataSet : DataSetModel :=
  ⟨["bit1", "bit2"], fun _ => 0, 1, fun _ _ _ => [[]]⟩

/-- A concrete 1-by-1 histogram whose single entry is `n`. -/
def cHist (n : ℕ) : NpMatrix := ⟨1, 1, fun _ _ => n⟩

/-- A concrete store with fragments 1 and 2 and both histograms persisted. -/
def cStoreFull : HistStore :=
  ⟨[1, 2], fun f => if f = 1 ∨ f = 2 then some (cHist f) else none⟩

/-- The same store with the fragment order reversed. -/
def cStoreFullRev : HistStore :=
  ⟨[2, 1], fun f => if f = 1 ∨ f = 2 then some (cHist f) else none⟩

/-- A concrete store with one fragment whose histogram is not persisted. -/
def cStoreMissing : HistStore := ⟨[5], fun _ => none⟩

/-- A concrete store with no fragments at all. -/
def cStoreEmpty : HistStore := ⟨[], fun _ => none⟩

/-- A concrete heap: every buffer holds the empty uint16 image. -/
def cHeap : NpHeap := fun _ => NpBuf.u16 []

/-! ## Theorems -/

/-- The edge list materialized by `np.arange(0, 65535, 1)` indeed has
`histogramEdgeCount` entries, so `histogramEdgeCount - 1` is the
`len(histogramBins) - 1` of `_run_analysis` line 146. -/
theorem histogramEdges_length : histogramEdges.length = histogramEdgeCount := by
  rw [histogramEdges]
  exact List.length_range histogramEdgeCount

/-- C2: configuration resolution fills exactly the absent fields with
`highpassSigma = 3`, `deconSigma = 2`, `deconIterations = 20`,
`codebookIndex = 0`, and derives `deconFilterSize = 2*ceil(2*deconSigma)+1`
only when `deconFilterSize` itself is absent; any explicitly supplied value
overrides its default; resolving with `deconSigma = 3` yields filter size 13
and with `deconSigma = 2` yields filter size 9. -/
theorem c2_resolution_defaults (p : PartialParams) :
    (p.highpass_sigma = none → (resolveParameters p).highpass_sigma = 3) ∧
    (p.decon_sigma = none → (resolveParameters p).decon_sigma = 2) ∧
    (p.decon_iterations = none → (resolveParameters p).decon_iterations = 20) ∧
    (p.codebook_index = none → (resolveParameters p).codebook_index = 0) ∧
    (p.decon_filter_size = none →
      (resolveParameters p).decon_filter_size =
        2 * ⌈2 * (resolveParameters p).decon_sigma⌉ + 1) ∧
    (∀ v, p.highpass_sigma = some v →
      (resolveParameters p).highpass_sigma = v) ∧
    (∀ v, p.decon_sigma = some v → (resolveParameters p).decon_sigma = v) ∧
    (∀ v, p.decon_filter_size = some v →
      (resolveParameters p).decon_filter_size = v) ∧
    (∀ v, p.decon_iterations = some v →
      (resolveParameters p).decon_iterations = v) ∧
    (∀ v, p.codebook_index = some v →
      (resolveParameters p).codebook_index = v) ∧
    (resolveParameters ⟨none, some 3, none, none, none⟩).decon_filter_size = 13 ∧
    (resolveParameters ⟨none, some 2, none, none, none⟩).decon_filter_size = 9 := by
  refine ⟨fun h => ?_, fun h => ?_, fun h => ?_, fun h => ?_, fun h => ?_,
    fun v h => ?_, fun v h => ?_, fun v h => ?_, fun v h => ?_, fun v h => ?_,
    ?_, ?_⟩ <;>
    simp [resolveParameters, gaussianKernelSizeFromSigma, *] <;> norm_num

/-- C2 witness: the theorem applied to the all-defaults configuration. -/
theorem c2_resolution_defaults_witness :
    emptyParams.highpass_sigma = none ∧
    (resolveParameters emptyParams).highpass_sigma = 3 ∧
    (resolveParameters ⟨none, some 3, none, none, none⟩).decon_filter_size = 13 :=
  ⟨rfl, (c2_resolution_defaults emptyParams).1 rfl,
    (c2_resolution_defaults emptyParams).2.2.2.2.2.2.2.2.2.2.1⟩

/-- C3 counterexample: `DeconvolutionPreprocess.__init__` contains no
validation and no raise, so resolving a configuration that violates every
invariant (negative sigmas, an even filter size) completes successfully and
returns the invalid values unchanged instead of failing with a
ConfigurationError. -/
theorem c3_counterexample :
    resolveParameters ⟨some (-1), some (-2), some 4, none, none⟩ =
      ⟨-1, -2, 4, 20, 0⟩ ∧
    ((-1 : ℚ) < 0 ∧ (-2 : ℚ) < 0 ∧ (4 : ℤ) % 2 = 0) :=
  ⟨rfl, by norm_num⟩

/-- C3 amended: configuration resolution performs no validation: supplied
values that violate the documented invariants (non-positive sigmas, an even
filter size) are accepted and propagated unchanged into the resolved
configuration, and no error is raised at resolution time. -/
theorem c3_no_validation (hs ds : ℚ) (fs : ℤ)
    (_hhs : hs ≤ 0) (_hds : ds ≤ 0) (_hfs : fs % 2 = 0) :
    (resolveParameters ⟨some hs, some ds, some fs, none, none⟩).highpass_sigma
      = hs ∧
    (resolveParameters ⟨some hs, some ds, some fs, none, none⟩).decon_sigma
      = ds ∧
    (resolveParameters ⟨some hs, some ds, some fs, none, none⟩).decon_filter_size
      = fs :=
  ⟨rfl, rfl, rfl⟩

/-- C3 witness: the amended theorem applied at a concrete invalid
configuration. -/
theorem c3_no_validation_witness :
    ((-1 : ℚ) ≤ 0 ∧ (-2 : ℚ) ≤ 0 ∧ (4 : ℤ) % 2 = 0) ∧
    (resolveParameters ⟨some (-1), some (-2), some 4, none, none⟩).highpass_sigma
      = -1 :=
  ⟨⟨by norm_num, by norm_num, by norm_num⟩,
    (c3_no_validation (-1) (-2) 4 (by norm_num) (by norm_num) (by norm_num)).1⟩

/-- C1 counterexample: the histogram built by `_run_analysis` for a concrete
two-bit fragment has 65534 columns, not 65535: `np.arange(0, 65535, 1)` has
65535 entries, and `np.zeros((bitCount, len(histogramBins) - 1))` therefore
allocates 65534 bins. -/
theorem c1_shape_counterexample :
    (runAnalysisHistogram cBlur cConv defaultParams cDataSet 0).cols = 65534 ∧
    (runAnalysisHistogram cBlur cConv defaultParams cDataSet 0).cols ≠ 65535 := by
  constructor
  · rfl
  · intro h
    simp [runAnalysisHistogram, histogramEdgeCount] at h

/-- C1 amended: for every fragment, the pixel histogram built by
`_run_analysis` is a 2D array of shape (bitCount, 65534): one row per bit of
the active codebook and one count per width-1 intensity bin; the bins cover
the 16-bit range up to 65534, leaving the top uint16 value outside the last
bin edge. -/
theorem c1_histogram_shape (gaussianBlur : ℤ → ℚ → Image → Image)
    (convolveGaussian : ℤ → ℚ → ImageQ → ImageQ)
    (p : ResolvedParams) (ds : DataSetModel) (fragmentIndex : ℕ) :
    (runAnalysisHistogram gaussianBlur convolveGaussian p ds
        fragmentIndex).rows = ds.bitNames.length ∧
    (runAnalysisHistogram gaussianBlur convolveGaussian p ds
        fragmentIndex).cols = 65534 := by
  constructor
  · rfl
  · rfl

/-- Rowwise elementwise maps preserve the shape of a 2D list. -/
theorem shapeOf_map_map (f : α → β) (a : List (List α)) :
    shapeOf (a.map (List.map f)) = shapeOf a := by
  simp [shapeOf, List.map_map, Function.comp]

/-- A nested `zipWith` against an equal-shaped second operand preserves the
shape of the first operand. -/
theorem shapeOf_zipWith (f : α → β → γ) (a : List (List α))
    (b : List (List β)) (h : shapeOf b = shapeOf a) :
    shapeOf (List.zipWith (List.zipWith f) a b) = shapeOf a := by
  induction a generalizing b with
  | nil => simp [shapeOf]
  | cons r rs ih =>
    cases b with
    | nil => simp [shapeOf] at h
    | cons s bs =>
      simp [shapeOf] at h ⊢
      obtain ⟨h1, h2⟩ := h
      exact ⟨by omega, ih bs h2⟩

/-- C5: for every non-negative input image (uint16 samples are non-negative
by type), the background-suppression stage of `_preprocess_image` —
subtracting the Gaussian-blurred image from the float-cast original, then
clipping negatives to zero — returns an image of the same dimensions with no
negative entries, for any blur operator that preserves dimensions (as
`cv2.GaussianBlur` does). -/
theorem c5_background_suppression_nonneg
    (gaussianBlur : ℤ → ℚ → Image → Image) (sigma : ℚ) (img : Image)
    (hblur : sameShape
      (gaussianBlur (gaussianKernelSizeFromSigma sigma) sigma img) img) :
    sameShape (highPassFilter gaussianBlur sigma img) img ∧
    ∀ row ∈ highPassFilter gaussianBlur sigma img, ∀ x ∈ row, 0 ≤ x := by
  constructor
  · show shapeOf (clipNegQ (imgSubQ img _)) = shapeOf img
    rw [clipNegQ, shapeOf_map_map, imgSubQ, shapeOf_zipWith _ _ _ hblur]
  · intro row hrow x hx
    rw [highPassFilter, clipNegQ] at hrow
    obtain ⟨row0, _, rfl⟩ := List.mem_map.mp hrow
    obtain ⟨y, _, rfl⟩ := List.mem_map.mp hx
    split
    · exact le_refl 0
    · next hy => exact le_of_not_lt hy

/-- C5 witness: the theorem applied to a concrete one-row image with the
identity blur instance. -/
theorem c5_background_suppression_nonneg_witness :
    sameShape (cBlur (gaussianKernelSizeFromSigma 3) 3 [[]]) ([[]] : Image) ∧
    sameShape (highPassFilter cBlur 3 [[]]) ([[]] : Image) :=
  ⟨rfl, (c5_background_suppression_nonneg cBlur 3 [[]] rfl).1⟩

/-- C6: the restoration pipeline `_preprocess_image` ends by casting the
floating-point deconvolution result to the 16-bit unsigned range (the
intermediate Lucy-Richardson iterations stay rational/floating-point in
`deconvolveLucyRichardson`), so every output pixel lies in [0, 65535] — for
every input image and every blur/convolution operator. -/
theorem c6_output_uint16_range (gaussianBlur : ℤ → ℚ → Image → Image)
    (convolveGaussian : ℤ → ℚ → ImageQ → ImageQ)
    (p : ResolvedParams) (img : Image) :
    ∀ row ∈ preprocessImage gaussianBlur convolveGaussian p img,
      ∀ v ∈ row, v ≤ 65535 := by
  intro row hrow v hv
  rw [preprocessImage, castImageUint16] at hrow
  obtain ⟨row0, _, rfl⟩ := List.mem_map.mp hrow
  obtain ⟨x, _, rfl⟩ := List.mem_map.mp hv
  have h : castUint16Q x < 65536 := Nat.mod_lt _ (by norm_num)
  omega

/-- C6 witness: the theorem applied to a concrete image with the identity
blur and convolution instances. -/
theorem c6_output_uint16_range_witness :
    ([] : List ℕ) ∈ preprocessImage cBlur cConv defaultParams [[]] ∧
    ∀ v ∈ ([] : List ℕ), v ≤ 65535 :=
  ⟨by decide,
    c6_output_uint16_range cBlur cConv defaultParams [[]] [] (by decide)⟩

/-- When every fragment of `l` has a persisted histogram, the accumulation
loop succeeds and computes the left fold of elementwise addition. -/
theorem aggregateLoop_ok (s : HistStore) (H : ℕ → NpMatrix) :
    ∀ (l : List ℕ) (acc : NpMatrix), (∀ f ∈ l, s.stored f = some (H f)) →
      aggregateLoop s acc l =
        .ok (l.foldl (fun a f => histAdd a (H f)) acc) := by
  intro l
  induction l with
  | nil => intro acc _; rfl
  | cons f rest ih =>
    intro acc hall
    have hf : s.stored f = some (H f) := hall f (List.mem_cons_self f rest)
    simp only [aggregateLoop, loadPixelHistogram, hf, List.foldl_cons]
    exact ih (histAdd acc (H f))
      (fun g hg => hall g (List.mem_cons_of_mem f hg))

/-- The left fold of elementwise addition over a list of histograms is the
accumulator plus the elementwise sum of the list. -/
theorem foldl_histAdd (H : ℕ → NpMatrix) :
    ∀ (l : List ℕ) (acc : NpMatrix),
      l.foldl (fun a f => histAdd a (H f)) acc =
        ⟨acc.rows, acc.cols,
          fun i j => acc.entry i j + (l.map (fun f => (H f).entry i j)).sum⟩ := by
  intro l
  induction l with
  | nil =>
    intro acc
    cases acc with
    | mk r c e => simp [List.foldl_nil]
  | cons f rest ih =>
    intro acc
    rw [List.foldl_cons, ih]
    simp only [histAdd, List.map_cons, List.sum_cons]
    congr 1
    funext i j
    exact Nat.add_assoc _ _ _

/-- When every fragment's histogram is persisted and all histograms share
the shape (R, C), the aggregate is the elementwise sum of all of them. -/
theorem getPixelHistogram_agg (s : HistStore) (H : ℕ → NpMatrix) (R C : ℕ)
    (hstored : ∀ f ∈ s.fovs, s.stored f = some (H f))
    (hdims : ∀ f ∈ s.fovs, (H f).rows = R ∧ (H f).cols = C)
    (hne : s.fovs ≠ []) :
    getPixelHistogram s none = .ok (histSum (s.fovs.map H) R C) := by
  obtain ⟨f0, rest, hcons⟩ := List.exists_cons_of_ne_nil hne
  have hf0mem : f0 ∈ s.fovs := by rw [hcons]; exact List.mem_cons_self f0 rest
  have hload : loadPixelHistogram s f0 = .ok (H f0) := by
    rw [loadPixelHistogram, hstored f0 hf0mem]
  have hstored2 : ∀ f ∈ f0 :: rest, s.stored f = some (H f) := by
    rw [← hcons]; exact hstored
  have hagg := aggregateLoop_ok s H (f0 :: rest)
    (npZeros (H f0).rows (H f0).cols) hstored2
  rw [foldl_histAdd] at hagg
  rw [getPixelHistogram, hcons]
  dsimp only
  rw [hload]
  dsimp only
  rw [hagg]
  have hr : (H f0).rows = R := (hdims f0 hf0mem).1
  have hc : (H f0).cols = C := (hdims f0 hf0mem).2
  rw [histSum]
  simp only [npZeros, hr, hc]
  congr 1
  congr 1
  funext i j
  rw [Nat.zero_add, List.map_map]
  rfl

/-- C7: when all N fragments have completed, the aggregate histogram is
exactly the elementwise sum H1 + ... + HN of the per-fragment histograms,
each counted exactly once (the accumulator starts from `np.zeros` of the
first histogram's shape and every fragment, the first included, is added
once); and the result is unchanged under any permutation of the fragment
enumeration order. -/
theorem c7_aggregate_elementwise_sum (s : HistStore) (H : ℕ → NpMatrix)
    (R C : ℕ)
    (hstored : ∀ f ∈ s.fovs, s.stored f = some (H f))
    (hdims : ∀ f ∈ s.fovs, (H f).rows = R ∧ (H f).cols = C)
    (hne : s.fovs ≠ []) :
    getPixelHistogram s none = .ok (histSum (s.fovs.map H) R C) ∧
    ∀ t : HistStore, t.stored = s.stored → t.fovs.Perm s.fovs →
      getPixelHistogram t none = getPixelHistogram s none := by
  have h1 := getPixelHistogram_agg s H R C hstored hdims hne
  refine ⟨h1, fun t hts hperm => ?_⟩
  have hstored2 : ∀ f ∈ t.fovs, t.stored f = some (H f) := by
    intro f hf
    rw [hts]
    exact hstored f (hperm.mem_iff.mp hf)
  have hdims2 : ∀ f ∈ t.fovs, (H f).rows = R ∧ (H f).cols = C :=
    fun f hf => hdims f (hperm.mem_iff.mp hf)
  have hne2 : t.fovs ≠ [] := by
    intro h0
    rw [h0] at hperm
    exact hne hperm.symm.eq_nil
  rw [getPixelHistogram_agg t H R C hstored2 hdims2 hne2, h1]
  congr 1
  rw [histSum, histSum]
  congr 1
  funext i j
  exact List.Perm.sum_eq ((hperm.map H).map (fun m => m.entry i j))

/-- C7 witness: the theorem applied to a concrete two-fragment store, and
order independence exercised on the reversed enumeration. -/
theorem c7_aggregate_elementwise_sum_witness :
    cStoreFull.fovs ≠ [] ∧
    getPixelHistogram cStoreFull none =
      .ok (histSum (cStoreFull.fovs.map cHist) 1 1) ∧
    getPixelHistogram cStoreFullRev none = getPixelHistogram cStoreFull none := by
  have h1 : ∀ f ∈ cStoreFull.fovs, cStoreFull.stored f = some (cHist f) := by
    intro f hf
    have hor : f = 1 ∨ f = 2 := by simpa [cStoreFull] using hf
    rcases hor with rfl | rfl
    · rfl
    · rfl
  have h2 : ∀ f ∈ cStoreFull.fovs, (cHist f).rows = 1 ∧ (cHist f).cols = 1 :=
    fun f _ => ⟨rfl, rfl⟩
  have h3 : cStoreFull.fovs ≠ [] := by simp [cStoreFull]
  have h := c7_aggregate_elementwise_sum cStoreFull cHist 1 1 h1 h2 h3
  exact ⟨h3, h.1, h.2 cStoreFullRev rfl (by decide)⟩

/-- If some fragment of `l` has no persisted histogram, the accumulation
loop fails with `HistogramNotFound` (at the first missing fragment). -/
theorem aggregateLoop_missing (s : HistStore) :
    ∀ (l : List ℕ) (acc : NpMatrix), (∃ f ∈ l, s.stored f = none) →
      aggregateLoop s acc l = .error .histogramNotFound := by
  intro l
  induction l with
  | nil =>
    rintro acc ⟨f, hf, _⟩
    exact absurd hf (List.not_mem_nil f)
  | cons g rest ih =>
    rintro acc ⟨f, hf, hnone⟩
    cases hg : s.stored g with
    | none => simp only [aggregateLoop, loadPixelHistogram, hg]
    | some m =>
      simp only [aggregateLoop, loadPixelHistogram, hg]
      rcases List.mem_cons.mp hf with rfl | hf2
      · rw [hg] at hnone
        exact absurd hnone (by simp)
      · exact ih _ ⟨f, hf2, hnone⟩

/-- C8: requesting a single fragment's histogram before it has been
persisted fails with `HistogramNotFound`, and so does requesting the
aggregate while that fragment is missing — never a zero-filled or partially
accumulated histogram. -/
theorem c8_missing_histogram_error (s : HistStore) (fov : ℕ)
    (hmiss : s.stored fov = none) :
    getPixelHistogram s (some fov) = .error .histogramNotFound ∧
    (fov ∈ s.fovs → getPixelHistogram s none = .error .histogramNotFound) := by
  constructor
  · show loadPixelHistogram s fov = _
    rw [loadPixelHistogram, hmiss]
  · intro hmem
    have hne : s.fovs ≠ [] := List.ne_nil_of_mem hmem
    obtain ⟨f0, rest, hcons⟩ := List.exists_cons_of_ne_nil hne
    rw [getPixelHistogram, hcons]
    cases h0 : s.stored f0 with
    | none => simp only [loadPixelHistogram, h0]
    | some m =>
      simp only [loadPixelHistogram, h0]
      rw [← hcons]
      exact aggregateLoop_missing s s.fovs _ ⟨fov, hmem, hmiss⟩

/-- C8 witness: the theorem applied to a concrete store whose only fragment
has no persisted histogram. -/
theorem c8_missing_histogram_error_witness :
    cStoreMissing.stored 5 = none ∧
    getPixelHistogram cStoreMissing (some 5) = .error .histogramNotFound ∧
    getPixelHistogram cStoreMissing none = .error .histogramNotFound := by
  have hm : cStoreMissing.stored 5 = none := rfl
  have hmem : (5 : ℕ) ∈ cStoreMissing.fovs := by simp [cStoreMissing]
  have h := c8_missing_histogram_error cStoreMissing 5 hm
  exact ⟨hm, h.1, h.2 hmem⟩

/-- C10: with zero fragments in the dataset, requesting the aggregate
histogram fails by indexing the empty fov list (`get_fovs()[0]`, an
IndexError) — not with `HistogramNotFound` and not by returning any
histogram. -/
theorem c10_empty_fovs_index_error (s : HistStore) (h : s.fovs = []) :
    getPixelHistogram s none = .error .indexError := by
  rw [getPixelHistogram, h]

/-- C10 witness: the theorem applied to the concrete empty store. -/
theorem c10_empty_fovs_index_error_witness :
    cStoreEmpty.fovs = [] ∧
    getPixelHistogram cStoreEmpty none = .error .indexError :=
  ⟨rfl, c10_empty_fovs_index_error cStoreEmpty rfl⟩

/-- C9: `_preprocess_image` never writes the caller's array: the only
in-place operation (the masked clip) targets the freshly allocated
`filteredImage` buffer, every stage's result lives in a new buffer, the
output buffer is distinct from the input buffer, and the output buffer
holds exactly the pure pipeline result `preprocessImage` of the input
image. -/
theorem c9_input_buffer_unchanged (gaussianBlur : ℤ → ℚ → Image → Image)
    (convolveGaussian : ℤ → ℚ → ImageQ → ImageQ) (p : ResolvedParams)
    (h : NpHeap) (inputId nextId : ℕ) (hfresh : inputId < nextId) :
    ((preprocessImageBuffers gaussianBlur convolveGaussian p h inputId
        nextId).1 inputId = h inputId) ∧
    ((preprocessImageBuffers gaussianBlur convolveGaussian p h inputId
        nextId).2.1 ≠ inputId) ∧
    (∀ img, h inputId = NpBuf.u16 img →
      (preprocessImageBuffers gaussianBlur convolveGaussian p h inputId
          nextId).1
        ((preprocessImageBuffers gaussianBlur convolveGaussian p h inputId
            nextId).2.1) =
        NpBuf.u16 (preprocessImage gaussianBlur convolveGaussian p img)) := by
  refine ⟨?_, ?_, ?_⟩
  · simp only [preprocessImageBuffers]
    rw [Function.update_noteq (by omega), Function.update_noteq (by omega),
      Function.update_noteq (by omega), Function.update_noteq (by omega),
      Function.update_noteq (by omega)]
  · simp only [preprocessImageBuffers]
    omega
  · intro img himg
    simp only [preprocessImageBuffers, himg]
    rw [Function.update_same]
    rfl

/-- C9 witness: the theorem applied at a concrete heap and buffer ids. -/
theorem c9_input_buffer_unchanged_witness :
    (0 : ℕ) < 1 ∧
    (preprocessImageBuffers cBlur cConv defaultParams cHeap 0 1).1 0 =
      cHeap 0 :=
  ⟨by decide,
    (c9_input_buffer_unchanged cBlur cConv defaultParams cHeap 0 1
      (by decide)).1⟩

/-- Edge `b` of the histogram binning is the integer `b` (and 0 past the
end, the `getD` default). -/
theorem getD_histogramEdges (b : ℕ) :
    histogramEdges.getD b 0 = if b < histogramEdgeCount then b else 0 := by
  rw [histogramEdges, List.getD_eq_getElem?_getD]
  by_cases h : b < histogramEdgeCount
  · simp [List.getElem?_range, h]
  · have hlen : (List.range histogramEdgeCount).length ≤ b := by
      simpa using Nat.le_of_not_lt h
    simp [h, List.getElem?_eq_none hlen]

/-- Within the bin range, a `histogramEdges` bin count is the number of
pixels satisfying that bin's membership predicate. -/
theorem npBinCount_histogramEdges_eq (img : Image) (b : ℕ)
    (hb : b < histogramEdgeCount - 1) :
    npBinCount histogramEdges img b = countPixels img (binPred b) := by
  have hc : histogramEdgeCount = 65535 := rfl
  have h1 : histogramEdges.getD b 0 = b := by
    rw [getD_histogramEdges, if_pos (by omega)]
  have h2 : histogramEdges.getD (b + 1) 0 = b + 1 := by
    rw [getD_histogramEdges, if_pos (by omega)]
  by_cases hlt : b + 2 < histogramEdgeCount
  · have hfun : binPred b = fun v => decide (b ≤ v) && decide (v < b + 1) := by
      funext v
      simp only [binPred, if_pos hlt]
    rw [hfun]
    simp only [npBinCount, histogramEdges_length, h1, h2, if_pos hlt]
  · have heq : b + 2 = histogramEdgeCount := by omega
    have hfun : binPred b = fun v => decide (b ≤ v) && decide (v ≤ b + 1) := by
      funext v
      simp only [binPred, if_neg hlt, if_pos heq]
    rw [hfun]
    simp only [npBinCount, histogramEdges_length, h1, h2, if_neg hlt,
      if_pos heq]

/-- Each pixel value at most 65534 lies in exactly one bin of the
`histogramEdges` binning, and a value of 65535 (or larger) lies in none. -/
theorem binPred_indicator (v : ℕ) :
    (Finset.range (histogramEdgeCount - 1)).sum
      (fun b => if binPred b v then 1 else 0) =
      (if v ≤ 65534 then 1 else 0 : ℕ) := by
  have hc : histogramEdgeCount = 65535 := rfl
  by_cases hv : v ≤ 65534
  · rw [if_pos hv]
    have hmem : ∀ b ∈ Finset.range (histogramEdgeCount - 1),
        (if binPred b v then (1 : ℕ) else 0) =
          if b = min v 65533 then 1 else 0 := by
      intro b hb
      rw [Finset.mem_range] at hb
      have hbp : (binPred b v = true) ↔ b = min v 65533 := by
        simp only [binPred, hc]
        split
        · simp only [Bool.and_eq_true, decide_eq_true_eq]
          omega
        · split
          · simp only [Bool.and_eq_true, decide_eq_true_eq]
            omega
          · simp only [Bool.false_eq_true, false_iff]
            omega
      simp only [hbp]
    rw [Finset.sum_congr rfl hmem,
      Finset.sum_ite_eq' (Finset.range (histogramEdgeCount - 1)) (min v 65533)
        (fun _ => 1)]
    rw [if_pos (Finset.mem_range.mpr (by omega))]
  · rw [if_neg hv]
    refine Finset.sum_eq_zero (fun b hb => ?_)
    rw [Finset.mem_range] at hb
    rw [if_neg]
    intro h
    simp only [binPred, hc] at h
    split at h
    · simp only [Bool.and_eq_true, decide_eq_true_eq] at h
      omega
    · split at h
      · simp only [Bool.and_eq_true, decide_eq_true_eq] at h
        omega
      · exact absurd h (by simp)

/-- A finite sum of per-row sums can be taken row by row. -/
theorem finsetSum_listSum (s : Finset ℕ) (l : List α) (F : α → ℕ → ℕ) :
    s.sum (fun b => (l.map (fun r => F r b)).sum) =
      (l.map (fun r => s.sum (F r))).sum := by
  induction l with
  | nil => simp
  | cons r t ih => simp [Finset.sum_add_distrib, ih]

/-- One row of natural samples: summing the per-bin counts over all bins of
the `histogramEdges` binning counts exactly the samples at most 65534. -/
theorem sum_countP_binPred (row : List ℕ) :
    (Finset.range (histogramEdgeCount - 1)).sum
      (fun b => row.countP (binPred b)) =
      row.countP (fun v => v ≤ 65534) := by
  induction row with
  | nil => simp [List.countP_nil]
  | cons v t ih =>
    simp only [List.countP_cons]
    rw [Finset.sum_add_distrib, ih, binPred_indicator v]
    simp

/-- Supporting fact for the fragment histogram's row sums: over any image,
the bins of the `histogramEdges` binning together count exactly the pixels
with value at most 65534 — a pixel with the top uint16 value 65535 is
dropped by `np.histogram`, so a bit row sums to the total pixel count minus
the number of 65535-valued restored pixels. -/
theorem sum_histogram_bins_eq (img : Image) :
    (Finset.range (histogramEdgeCount - 1)).sum
      (npBinCount histogramEdges img) =
      countPixels img (fun v => v ≤ 65534) := by
  rw [Finset.sum_congr rfl (fun b hb =>
    npBinCount_histogramEdges_eq img b (Finset.mem_range.mp hb))]
  simp only [countPixels, ← List.countP_eq_length_filter]
  rw [finsetSum_listSum]
  have hmap : (fun row : List ℕ =>
      (Finset.range (histogramEdgeCount - 1)).sum
        (fun b => row.countP (binPred b))) =
      fun row : List ℕ => row.countP (fun v => v ≤ 65534) :=
    funext sum_countP_binPred
  simp only [hmap]

/-- The row of a bit in the `_run_analysis` histogram sums, over all bins,
to the per-slice counts of restored pixels with value at most 65534. -/
theorem runAnalysis_row_sum (gaussianBlur : ℤ → ℚ → Image → Image)
    (convolveGaussian : ℤ → ℚ → ImageQ → ImageQ) (p : ResolvedParams)
    (ds : DataSetModel) (fragmentIndex bi : ℕ) (bitName : String)
    (hbit : ds.bitNames.get? bi = some bitName) :
    (Finset.range (histogramEdgeCount - 1)).sum
      (fun b => (runAnalysisHistogram gaussianBlur convolveGaussian p ds
        fragmentIndex).entry bi b) =
    ((List.range ds.zPositionCount).map (fun i =>
      countPixels
        (preprocessImage gaussianBlur convolveGaussian p
          (ds.alignedImage fragmentIndex (ds.channelForBit bitName) i))
        (fun v => v ≤ 65534))).sum := by
  simp only [runAnalysisHistogram, hbit]
  rw [finsetSum_listSum]
  have hmap : (fun i : ℕ =>
      (Finset.range (histogramEdgeCount - 1)).sum
        (fun b => npBinCount histogramEdges
          (preprocessImage gaussianBlur convolveGaussian p
            (ds.alignedImage fragmentIndex (ds.channelForBit bitName) i)) b)) =
      fun i : ℕ =>
        countPixels
          (preprocessImage gaussianBlur convolveGaussian p
            (ds.alignedImage fragmentIndex (ds.channelForBit bitName) i))
          (fun v => v ≤ 65534) :=
    funext (fun i => sum_histogram_bins_eq _)
  simp only [hmap]
